import Mathlib

/-!
# Verification of the `gvc` object store (Go version control)

A shallow embedding of the core of `src/app/main.go` (the later of the two
program snapshots in the repository, the one with `add` / `commit` / `log`).

Modelling conventions:
* Go byte strings (`string`, `[]byte`) are `List Nat`, each element a byte value.
* `zlib` is external to the repository; it is modelled as an abstract codec
  (`Zlib`) carrying its documented contract `decompress (compress b) = some b`.
* SHA-1 (`crypto/sha1`) is implemented concretely, so hashes evaluate.
* The on-disk object store is a map from the 40-hex object id to the stored
  (compressed) file bytes; `getObjectPath` is an injective renaming of the id
  for 40-character ids, so keying by the id itself is equivalent.
* The persisted JSON index file is modelled by its parsed value
  (`Option Index`; `none` = file absent), i.e. `json.Marshal` / `Unmarshal`
  are taken as a faithful round trip.
* `os` write errors are not modelled (writes always succeed); read/stat
  failures are modelled (`Option` lookups).
-/

set_option maxRecDepth 20000

namespace Gvc

/-- Bytes of an ASCII string literal (matches Go's byte view of the string). -/
def strBytes (s : String) : List Nat := s.toList.map Char.toNat

/-! ## SHA-1 (`crypto/sha1`) -/

/-- 32-bit rotate left, values kept below `2^32`. -/
def rotl (n x : Nat) : Nat :=
  ((x <<< n) % 4294967296) ||| (x >>> (32 - n))

/-- Big-endian 8-byte encoding of a (length) value. -/
def be64 (n : Nat) : List Nat :=
  [(n >>> 56) % 256, (n >>> 48) % 256, (n >>> 40) % 256, (n >>> 32) % 256,
   (n >>> 24) % 256, (n >>> 16) % 256, (n >>> 8) % 256, n % 256]

/-- Big-endian 4-byte encoding of a 32-bit word. -/
def be32 (n : Nat) : List Nat :=
  [(n >>> 24) % 256, (n >>> 16) % 256, (n >>> 8) % 256, n % 256]

/-- SHA-1 message padding: `0x80`, zeros, then the bit length, to a
multiple of 64 bytes. -/
def sha1pad (msg : List Nat) : List Nat :=
  let r := (msg.length + 1) % 64
  msg ++ [128] ++ List.replicate ((120 - r) % 64) 0 ++ be64 (msg.length * 8)

/-- Pack bytes into big-endian 32-bit words. -/
def toWords : List Nat → List Nat
  | a :: b :: c :: d :: rest => (((a * 256 + b) * 256 + c) * 256 + d) :: toWords rest
  | _ => []

/-- Extend the 16 block words with `k` further schedule words. -/
def buildW (ws : List Nat) : Nat → List Nat
  | 0 => ws
  | k + 1 =>
    let n := ws.length
    let w := rotl 1 ((ws.getD (n - 3) 0) ^^^ (ws.getD (n - 8) 0) ^^^
                     (ws.getD (n - 14) 0) ^^^ (ws.getD (n - 16) 0))
    buildW (ws ++ [w]) k

/-- One SHA-1 round. -/
def sha1round (i wi : Nat) : Nat × Nat × Nat × Nat × Nat → Nat × Nat × Nat × Nat × Nat
  | (a, b, c, d, e) =>
    let f :=
      if i < 20 then (b &&& c) ||| ((4294967295 ^^^ b) &&& d)
      else if i < 40 then b ^^^ c ^^^ d
      else if i < 60 then (b &&& c) ||| (b &&& d) ||| (c &&& d)
      else b ^^^ c ^^^ d
    let k :=
      if i < 20 then 0x5A827999
      else if i < 40 then 0x6ED9EBA1
      else if i < 60 then 0x8F1BBCDC
      else 0xCA62C1D6
    let temp := (rotl 5 a + f + e + k + wi) % 4294967296
    (temp, a, rotl 30 b, c, d)

/-- Run the 80 rounds of one block over the schedule words. -/
def sha1rounds (st : Nat × Nat × Nat × Nat × Nat) (i : Nat) : List Nat → Nat × Nat × Nat × Nat × Nat
  | [] => st
  | wi :: rest => sha1rounds (sha1round i wi st) (i + 1) rest

/-- Split bytes into 64-byte chunks (fuel-driven, structural). -/
def sha1chunks : Nat → List Nat → List (List Nat)
  | 0, _ => []
  | _ + 1, [] => []
  | k + 1, b :: rest => ((b :: rest).take 64) :: sha1chunks k ((b :: rest).drop 64)

/-- Absorb one 64-byte block into the running state. -/
def sha1block (h : Nat × Nat × Nat × Nat × Nat) (block : List Nat) : Nat × Nat × Nat × Nat × Nat :=
  let (h0, h1, h2, h3, h4) := h
  let (a, b, c, d, e) := sha1rounds h 0 (buildW (toWords block) 64)
  ((h0 + a) % 4294967296, (h1 + b) % 4294967296, (h2 + c) % 4294967296,
   (h3 + d) % 4294967296, (h4 + e) % 4294967296)

/-- Process the padded message 64 bytes at a time. -/
def sha1blocks (h : Nat × Nat × Nat × Nat × Nat) (bytes : List Nat) : Nat × Nat × Nat × Nat × Nat :=
  (sha1chunks bytes.length bytes).foldl sha1block h

/-- Digest as 20 bytes. -/
def digestBytes (h : Nat × Nat × Nat × Nat × Nat) : List Nat :=
  be32 h.1 ++ be32 h.2.1 ++ be32 h.2.2.1 ++ be32 h.2.2.2.1 ++ be32 h.2.2.2.2

/-- SHA-1 of a byte sequence: 20 bytes. -/
def sha1 (msg : List Nat) : List Nat :=
  digestBytes (sha1blocks (1732584193, 4023233417, 2562383102, 271733878, 3285377520)
    (sha1pad msg))

/-- Lower-case hex digit of a value below 16 (as a byte). -/
def hexDigit (d : Nat) : Nat := if d < 10 then 48 + d else 87 + d

/-- Lower-case hex encoding of bytes (Go `hex.EncodeToString`). -/
def hexBytes : List Nat → List Nat
  | [] => []
  | b :: rest => hexDigit (b / 16) :: hexDigit (b % 16) :: hexBytes rest

/-- The 40-hex-character object id of a byte payload. -/
def sha1hex (msg : List Nat) : List Nat := hexBytes (sha1 msg)

/-! ## Decimal formatting (`fmt.Sprintf "%d"`) and scanning -/

/-- Decimal digits, fuel-driven so that it evaluates by kernel reduction;
`fuel > n` always holds at the call below. -/
def natDecAux : Nat → Nat → List Nat
  | 0, _ => []
  | fuel + 1, n => if n < 10 then [48 + n] else natDecAux fuel (n / 10) ++ [48 + n % 10]

/-- Decimal digits (as bytes) of a natural number, no sign, no padding. -/
def natDec (n : Nat) : List Nat := natDecAux (n + 1) n

/-- Decimal digits of an integer, with a leading `-` for negatives. -/
def intDec (n : Int) : List Nat :=
  if n < 0 then 45 :: natDec n.natAbs else natDec n.natAbs

/-- Is the byte an ASCII decimal digit? -/
def isDigitB (b : Nat) : Bool := 48 ≤ b && b ≤ 57

/-- Is the byte whitespace in the `fmt` / `unicode.IsSpace` ASCII sense? -/
def isWsB (b : Nat) : Bool := b = 32 || b = 9 || b = 10 || b = 13 || b = 11 || b = 12

/-- Value of a run of decimal digit bytes. -/
def digitsVal (ds : List Nat) : Nat := ds.foldl (fun a d => a * 10 + (d - 48)) 0

/-- Is the byte an ASCII hex digit (`encoding/hex` accepts 0-9, a-f, A-F)? -/
def isHexB (b : Nat) : Bool :=
  (48 ≤ b && b ≤ 57) || (97 ≤ b && b ≤ 102) || (65 ≤ b && b ≤ 70)

/-- Value of one hex digit byte, `none` if not a hex digit. -/
def hexVal (b : Nat) : Option Nat :=
  if 48 ≤ b && b ≤ 57 then some (b - 48)
  else if 97 ≤ b && b ≤ 102 then some (b - 87)
  else if 65 ≤ b && b ≤ 70 then some (b - 55)
  else none

/-- Go `hex.DecodeString`, keeping only the bytes decoded before any error
(the source ignores the returned error, so the prefix is what is used). -/
def decodeHexLossy : List Nat → List Nat
  | h :: l :: rest =>
    match hexVal h, hexVal l with
    | some a, some b => (a * 16 + b) :: decodeHexLossy rest
    | _, _ => []
  | _ => []

/-! ## Object store (`validateSHA`, `writeObject`, `readObject`) -/

/-- Error taxonomy of the program, from its `errors.New` / `fmt.Errorf` sites. -/
inductive GvcErr where
  | invalidHash   -- "invalid SHA length/format"
  | notFound      -- "failed to read object"
  | corrupt       -- "failed to decompress object" / "content length mismatch"
  | headerParse   -- "failed to parse object header"
  | emptyIndex    -- "nothing to commit (staging area is empty)"
  | detachedHead  -- "cannot update detached HEAD"
  | usage         -- usage errors from the handlers
  | statFailed    -- "failed to stat file" / "failed to read file"
  | headMissing   -- "failed to read HEAD"
  | notACommit    -- "expected commit object, got %s"
  | ioError       -- other I/O failures
  deriving DecidableEq, Repr

/-- Go `validateSHA`: exactly 40 characters and `hex.DecodeString` succeeds
(for a 40-character string that means every byte is a hex digit). -/
def validateSHA (sha : List Nat) : Bool :=
  sha.length = 40 && sha.all isHexB

/-- The external `compress/zlib` codec, with its documented round-trip
contract; `decompress` is `none` when the data is not valid zlib. -/
structure Zlib where
  compress : List Nat → List Nat
  decompress : List Nat → Option (List Nat)
  roundtrip : ∀ bs, decompress (compress bs) = some bs

/-- The trivial codec (used to instantiate theorems at concrete inputs). -/
def idZlib : Zlib where
  compress := fun b => b
  decompress := fun b => some b
  roundtrip := fun _ => rfl

/-- A codec that prepends a tag byte; its `decompress` fails on untagged
data, which lets corruption be exercised concretely. -/
def tagZlib : Zlib where
  compress := fun b => 0 :: b
  decompress := fun b => match b with
    | 0 :: rest => some rest
    | _ => none
  roundtrip := fun _ => rfl

/-- The `.gvc/objects` directory: object id (40 hex bytes) to stored file
bytes. `getObjectPath` splits the id 2/38 into a path, an injective renaming
for 40-character ids, so the map is keyed by the id itself. -/
def ObjStore := List (List Nat × List Nat)

/-- `os.ReadFile` on the object path: first matching entry. -/
def lookupStore : ObjStore → List Nat → Option (List Nat)
  | [], _ => none
  | (k, v) :: rest, sha => if k = sha then some v else lookupStore rest sha

/-- The header-prefixed payload `"<type> <len>\x00" ++ content`. -/
def objectFrame (objectType content : List Nat) : List Nat :=
  objectType ++ 32 :: natDec content.length ++ 0 :: content

def blobType : List Nat := strBytes "blob"
def treeType : List Nat := strBytes "tree"
def commitType : List Nat := strBytes "commit"

/-- Go `writeObject`: hash the framed payload, store its compressed bytes at
the derived path (`os.WriteFile` overwrites), return the hex id. -/
def writeObject (z : Zlib) (store : ObjStore) (objectType content : List Nat) :
    List Nat × ObjStore :=
  let fullContent := objectFrame objectType content
  let sha := sha1hex fullContent
  (sha, ((sha, z.compress fullContent) :: store : ObjStore))

/-- `fmt.Fscanf(zr, "%s %d\x00", ...)` over the decompressed bytes:
a whitespace-delimited token, whitespace, a decimal integer (optional
sign), then a literal NUL; the remainder is the content. -/
def parseHeader (raw : List Nat) : Option (List Nat × Int × List Nat) :=
  let s0 := raw.dropWhile isWsB
  let tok := s0.takeWhile (fun b => !isWsB b)
  if tok = [] then none
  else
    let s1 := (s0.drop tok.length).dropWhile isWsB
    let s2 := if s1.headD 0 = 45 ∨ s1.headD 0 = 43 then s1.tail else s1
    let ds := s2.takeWhile isDigitB
    if ds = [] then none
    else
      match s2.drop ds.length with
      | 0 :: content =>
        some (tok,
          (if s1.headD 0 = 45 then -(digitsVal ds : Int) else (digitsVal ds : Int)), content)
      | _ => none

/-- Go `readObject`: validate the id, read the object file, decompress,
scan the header, read the rest and check it against the declared length. -/
def readObject (z : Zlib) (store : ObjStore) (sha : List Nat) :
    Except GvcErr (List Nat × List Nat) :=
  if !validateSHA sha then .error .invalidHash
  else
    match lookupStore store sha with
    | none => .error .notFound
    | some data =>
      match z.decompress data with
      | none => .error .corrupt
      | some raw =>
        match parseHeader raw with
        | none => .error .headerParse
        | some (objectType, contentLength, content) =>
          if (content.length : Int) ≠ contentLength then .error .corrupt
          else .ok (objectType, content)

/-! ## String utilities (byte-level `strings.Split`, `SplitN`, `Join`, `TrimSpace`) -/

/-- Go `strings.Split(s, sep)` for a one-byte separator. -/
def splitOnByte (sep : Nat) : List Nat → List (List Nat)
  | [] => [[]]
  | b :: bs =>
    match splitOnByte sep bs with
    | [] => [[]]
    | cur :: rest => if b = sep then [] :: cur :: rest else (b :: cur) :: rest

/-- Position of the first occurrence of a byte: the parts before and after. -/
def splitFirst (sep : Nat) : List Nat → Option (List Nat × List Nat)
  | [] => none
  | b :: bs =>
    if b = sep then some ([], bs)
    else
      match splitFirst sep bs with
      | none => none
      | some (x, y) => some (b :: x, y)

/-- Go `strings.SplitN(s, sep, 2)` for a one-byte separator. -/
def splitN2 (sep : Nat) (s : List Nat) : List (List Nat) :=
  match splitFirst sep s with
  | none => [s]
  | some (a, b) => [a, b]

/-- Go `strings.Join` for byte-list pieces. -/
def joinWith (sep : List Nat) : List (List Nat) → List Nat
  | [] => []
  | [x] => x
  | x :: y :: rest => x ++ sep ++ joinWith sep (y :: rest)

/-- Go `strings.TrimSpace` (ASCII whitespace; the multi-byte Unicode spaces
do not occur in this program's data). -/
def trimSpace (s : List Nat) : List Nat :=
  ((s.reverse.dropWhile isWsB).reverse).dropWhile isWsB

/-! ## Commit model (`parseCommit`, `parseInt64`, `commitTree`) -/

/-- Parsed commit information (Go `CommitInfo`); `timestamp` is seconds
since the epoch as recovered by `parseInt64`. -/
structure CommitInfo where
  sha : List Nat
  treeSHA : List Nat
  parentSHA : List Nat
  author : List Nat
  message : List Nat
  timestamp : Int
  deriving DecidableEq, Repr

/-- The zero-valued record `&CommitInfo{SHA: commitSHA}`. -/
def emptyCommitInfo (sha : List Nat) : CommitInfo := ⟨sha, [], [], [], [], 0⟩

/-- Go `strconv.ParseInt(s, 10, 64)` succeeds: optional sign, at least one
digit, all digits, and the value fits in a signed 64-bit integer. -/
def wellFormedInt64 (s : List Nat) : Bool :=
  match s with
  | [] => false
  | 43 :: rest =>
    !rest.isEmpty && rest.all isDigitB && digitsVal rest ≤ 9223372036854775807
  | 45 :: rest =>
    !rest.isEmpty && rest.all isDigitB && digitsVal rest ≤ 9223372036854775808
  | s => s.all isDigitB && digitsVal s ≤ 9223372036854775807

/-- Go `parseInt64`: the parsed value, or 0 (with a warning) on any parse
error. -/
def parseInt64 (s : List Nat) : Int :=
  if wellFormedInt64 s then
    match s with
    | 45 :: rest => -(digitsVal rest : Int)
    | 43 :: rest => (digitsVal rest : Int)
    | _ => (digitsVal s : Int)
  else 0

/-- The `author` header value: `{name-tokens..., timestamp, tz}`; the last
two tokens are timestamp and offset, the rest joined back as the name. -/
def applyAuthor (c : CommitInfo) (value : List Nat) : CommitInfo :=
  let authorParts := splitOnByte 32 value
  if 2 ≤ authorParts.length then
    { c with
      timestamp := parseInt64 (authorParts.getD (authorParts.length - 2) []),
      author := joinWith [32] (authorParts.take (authorParts.length - 2)) }
  else c

/-- One header line of `parseCommit`: split once on the first space; lines
with no space and unknown keys are skipped. -/
def headerStep (c : CommitInfo) (line : List Nat) : CommitInfo :=
  match splitN2 32 line with
  | [key, value] =>
    if key = strBytes "tree" then { c with treeSHA := value }
    else if key = strBytes "parent" then { c with parentSHA := value }
    else if key = strBytes "author" then applyAuthor c value
    else c
  | _ => c

/-- The header loop of `parseCommit`: stops at the first blank line and
reports the message start index (Go's `-1` sentinel is `none`). -/
def parseLoop : List (List Nat) → Nat → CommitInfo → CommitInfo × Option Nat
  | [], _, c => (c, none)
  | line :: rest, i, c =>
    if line = [] then (c, some (i + 1))
    else parseLoop rest (i + 1) (headerStep c line)

/-- The final message extraction of `parseCommit`: when a blank line was
found (`messageStart > 0`) and lines follow it, the message is the joined,
whitespace-trimmed remainder. -/
def finishMessage (lines : List (List Nat)) : CommitInfo × Option Nat → CommitInfo
  | (c, none) => c
  | (c, some m) =>
    if m < lines.length then
      { c with message := trimSpace (joinWith [10] (lines.drop m)) }
    else c

/-- Go `parseCommit`: split into lines, fold the header, then take the
joined, whitespace-trimmed remainder as the message. The Go function's
only return is `(commit, nil)`, hence the structurally `none` error. -/
def parseCommit (commitSHA content : List Nat) : CommitInfo × Option GvcErr :=
  let lines := splitOnByte 10 content
  (finishMessage lines (parseLoop lines 0 (emptyCommitInfo commitSHA)), none)

/-- The fixed author string of `commitTree`. -/
def gvcAuthor : List Nat := strBytes "gvc <Ritik Chauhan> <critik1704@gmail.com>"

/-- `"%s %d +0000"`: author, space, Unix seconds, fixed UTC offset. -/
def authorStamp (now : Int) : List Nat :=
  gvcAuthor ++ 32 :: (intDec now ++ strBytes " +0000")

/-- The byte content written by `commitTree` for the given tree, parent
(empty sentinel = root), message and wall-clock seconds. -/
def commitContent (treeSHA parentSHA message : List Nat) (now : Int) : List Nat :=
  strBytes "tree " ++ treeSHA ++ 10 ::
    ((if parentSHA = [] then [] else strBytes "parent " ++ parentSHA ++ [10]) ++
      (strBytes "author " ++ authorStamp now ++ 10 ::
        (strBytes "committer " ++ authorStamp now ++ 10 :: (10 :: (message ++ [10])))))

/-- Go `commitTree`: validate the tree hash, validate the parent unless it
is the empty sentinel, then store the commit object. -/
def commitTree (z : Zlib) (store : ObjStore) (treeSHA parentSHA message : List Nat)
    (now : Int) : Except GvcErr (List Nat × ObjStore) :=
  if validateSHA treeSHA = false then .error .invalidHash
  else if parentSHA ≠ [] ∧ validateSHA parentSHA = false then .error .invalidHash
  else .ok (writeObject z store commitType (commitContent treeSHA parentSHA message now))

/-! ## Supporting lemmas -/

theorem takeWhile_append_of_all {α : Type} {p : α → Bool} {xs : List α}
    (h : ∀ b ∈ xs, p b = true) {y : α} (hy : p y = false) (r : List α) :
    (xs ++ y :: r).takeWhile p = xs := by
  induction xs with
  | nil => simp [List.takeWhile_cons, hy]
  | cons a l ih =>
    have ha : p a = true := h a (by simp)
    simp [List.takeWhile_cons, ha, ih (fun b hb => h b (by simp [hb]))]

theorem dropWhile_append_of_all {α : Type} {p : α → Bool} {xs : List α}
    (h : ∀ b ∈ xs, p b = true) {y : α} (hy : p y = false) (r : List α) :
    (xs ++ y :: r).dropWhile p = y :: r := by
  induction xs with
  | nil => simp [List.dropWhile_cons, hy]
  | cons a l ih =>
    have ha : p a = true := h a (by simp)
    simp [List.dropWhile_cons, ha, ih (fun b hb => h b (by simp [hb]))]

theorem natDecAux_digits {fuel n : Nat} (h : n < fuel) :
    ∀ b ∈ natDecAux fuel n, isDigitB b = true := by
  induction fuel generalizing n with
  | zero => omega
  | succ fuel ih =>
    intro b hb
    by_cases hn : n < 10
    · simp [natDecAux, hn] at hb
      subst hb; simp [isDigitB]; omega
    · simp [natDecAux, hn] at hb
      rcases hb with hb | hb
      · exact ih (by omega) b hb
      · subst hb; simp [isDigitB]; omega

theorem natDecAux_ne_nil {fuel n : Nat} (h : n < fuel) : natDecAux fuel n ≠ [] := by
  cases fuel with
  | zero => omega
  | succ fuel =>
    by_cases hn : n < 10 <;> simp [natDecAux, hn]

theorem natDecAux_val {fuel n : Nat} (h : n < fuel) : digitsVal (natDecAux fuel n) = n := by
  induction fuel generalizing n with
  | zero => omega
  | succ fuel ih =>
    by_cases hn : n < 10
    · simp [natDecAux, hn, digitsVal]
    · have hd : n / 10 < fuel := by omega
      simp only [natDecAux, hn, if_false, digitsVal, List.foldl_append, List.foldl_cons,
        List.foldl_nil]
      have := ih hd
      simp only [digitsVal] at this
      rw [this]
      omega

theorem natDec_digits {n : Nat} : ∀ b ∈ natDec n, isDigitB b = true :=
  natDecAux_digits (Nat.lt_succ_self n)

theorem natDec_ne_nil {n : Nat} : natDec n ≠ [] :=
  natDecAux_ne_nil (Nat.lt_succ_self n)

theorem natDec_val {n : Nat} : digitsVal (natDec n) = n :=
  natDecAux_val (Nat.lt_succ_self n)

theorem isWsB_of_isDigitB {b : Nat} (h : isDigitB b = true) : isWsB b = false := by
  simp [isDigitB] at h; simp [isWsB]; omega

theorem be32_lt {x : Nat} : ∀ b ∈ be32 x, b < 256 := by
  intro b hb
  simp [be32] at hb
  rcases hb with h | h | h | h <;> subst h <;> exact Nat.mod_lt _ (by norm_num)

theorem sha1_lt {m : List Nat} : ∀ b ∈ sha1 m, b < 256 := by
  intro b hb
  simp only [sha1, digestBytes, List.mem_append] at hb
  rcases hb with ((((h | h) | h) | h) | h) <;> exact be32_lt _ h

theorem sha1_length {m : List Nat} : (sha1 m).length = 20 := by
  simp [sha1, digestBytes, be32]

theorem isHexB_hexDigit {d : Nat} (h : d < 16) : isHexB (hexDigit d) = true := by
  simp [hexDigit]; by_cases h10 : d < 10 <;> simp [h10, isHexB] <;> omega

theorem hexBytes_length {bs : List Nat} : (hexBytes bs).length = 2 * bs.length := by
  induction bs with
  | nil => simp [hexBytes]
  | cons b l ih => simp [hexBytes, ih]; omega

theorem hexBytes_all_hex {bs : List Nat} (h : ∀ b ∈ bs, b < 256) :
    ∀ x ∈ hexBytes bs, isHexB x = true := by
  induction bs with
  | nil => simp [hexBytes]
  | cons b l ih =>
    intro x hx
    have hb : b < 256 := h b (by simp)
    simp [hexBytes] at hx
    rcases hx with hx | hx | hx
    · subst hx; exact isHexB_hexDigit (by omega)
    · subst hx; exact isHexB_hexDigit (by omega)
    · exact ih (fun y hy => h y (by simp [hy])) x hx

theorem validateSHA_sha1hex {m : List Nat} : validateSHA (sha1hex m) = true := by
  simp only [validateSHA, sha1hex, Bool.and_eq_true, decide_eq_true_eq]
  refine ⟨?_, ?_⟩
  · rw [hexBytes_length, sha1_length]
  · rw [List.all_eq_true]
    exact fun x hx => hexBytes_all_hex sha1_lt x hx

theorem parseHeader_canonical {xs ds c : List Nat} (hx : xs ≠ [])
    (hxw : ∀ b ∈ xs, isWsB b = false) (hd : ds ≠ [])
    (hdd : ∀ b ∈ ds, isDigitB b = true) :
    parseHeader (xs ++ 32 :: (ds ++ 0 :: c)) = some (xs, (digitsVal ds : Int), c) := by
  obtain ⟨a, xs', rfl⟩ : ∃ a xs', xs = a :: xs' := by
    cases xs with
    | nil => exact absurd rfl hx
    | cons a l => exact ⟨a, l, rfl⟩
  obtain ⟨e, ds', rfl⟩ : ∃ e ds', ds = e :: ds' := by
    cases ds with
    | nil => exact absurd rfl hd
    | cons e l => exact ⟨e, l, rfl⟩
  have ha : isWsB a = false := hxw a (by simp)
  have he : isDigitB e = true := hdd e (by simp)
  have hewz : isWsB e = false := isWsB_of_isDigitB he
  have he45 : (e = 45) = False := by
    simp only [isDigitB, Bool.and_eq_true, decide_eq_true_eq] at he
    simp only [eq_iff_iff, iff_false]
    omega
  have he43 : (e = 43) = False := by
    simp only [isDigitB, Bool.and_eq_true, decide_eq_true_eq] at he
    simp only [eq_iff_iff, iff_false]
    omega
  have hw32 : isWsB 32 = true := by decide
  have hs0 : ((a :: xs') ++ 32 :: ((e :: ds') ++ 0 :: c)).dropWhile isWsB
      = (a :: xs') ++ 32 :: ((e :: ds') ++ 0 :: c) := by
    simp [List.dropWhile_cons, ha]
  have htok : ((a :: xs') ++ 32 :: ((e :: ds') ++ 0 :: c)).takeWhile (fun b => !isWsB b)
      = a :: xs' :=
    takeWhile_append_of_all (fun b hb => by simp [hxw b hb]) (by simp [hw32]) _
  have hdrop : ((a :: xs') ++ 32 :: ((e :: ds') ++ 0 :: c)).drop (a :: xs').length
      = 32 :: ((e :: ds') ++ 0 :: c) := List.drop_left _ _
  have hs1 : (32 :: ((e :: ds') ++ 0 :: c)).dropWhile isWsB = e :: (ds' ++ 0 :: c) := by
    simp [List.dropWhile_cons, hw32, hewz]
  have hds : (e :: (ds' ++ 0 :: c)).takeWhile isDigitB = e :: ds' := by
    have h0 : isDigitB 0 = false := by decide
    have h := @takeWhile_append_of_all Nat isDigitB (e :: ds') hdd 0 h0 c
    simp only [List.cons_append] at h
    exact h
  have hdrop2 : (e :: (ds' ++ 0 :: c)).drop (e :: ds').length = 0 :: c := by
    have h := List.drop_left (e :: ds') (0 :: c)
    simp only [List.cons_append] at h
    exact h
  simp only [parseHeader, hs0, htok, hdrop, hs1, hds, hdrop2, List.headD_cons,
    he45, he43, or_self, if_false]
  rw [if_neg (by simp)]
  rw [if_neg (by simp)]

theorem parseHeader_frame {t c : List Nat} (h1 : t ≠ [])
    (h2 : ∀ b ∈ t, isWsB b = false) :
    parseHeader (objectFrame t c) = some (t, (c.length : Int), c) := by
  have h := parseHeader_canonical (c := c) h1 h2 (natDec_ne_nil (n := c.length)) natDec_digits
  rw [natDec_val] at h
  have hsh : objectFrame t c = t ++ 32 :: (natDec c.length ++ 0 :: c) := by
    simp [objectFrame]
  rw [hsh, h]

/-- C1: writing an object of type blob, tree or commit and reading back the
returned hash yields exactly the written type and content, and the hash
returned by `writeObject` does not depend on the store (so writing twice
returns the same hash both times). -/
theorem writeObject_readObject_roundtrip (z : Zlib) (st st2 : ObjStore) (t c : List Nat)
    (ht : t = blobType ∨ t = treeType ∨ t = commitType) :
    readObject z (writeObject z st t c).2 (writeObject z st t c).1 = .ok (t, c) ∧
    (writeObject z st2 t c).1 = (writeObject z st t c).1 := by
  refine ⟨?_, rfl⟩
  have hne : t ≠ [] := by rcases ht with h | h | h <;> subst h <;> decide
  have hnws : ∀ b ∈ t, isWsB b = false := by
    rcases ht with h | h | h <;> subst h <;> decide
  simp [writeObject, readObject, lookupStore, validateSHA_sha1hex, Zlib.roundtrip,
    parseHeader_frame hne hnws]

/-- Witness for C1 at a concrete input. -/
theorem writeObject_readObject_roundtrip_witness :
    readObject idZlib (writeObject idZlib [] blobType (strBytes "hi")).2
      (writeObject idZlib [] blobType (strBytes "hi")).1 = .ok (blobType, strBytes "hi") ∧
    (writeObject idZlib [(strBytes "x", [1])] blobType (strBytes "hi")).1 =
      (writeObject idZlib [] blobType (strBytes "hi")).1 :=
  writeObject_readObject_roundtrip idZlib [] [(strBytes "x", [1])] blobType (strBytes "hi")
    (Or.inl rfl)

/-- C7: `readObject` fails with the corruption error whenever decompression
fails, and whenever it succeeds the returned content's length agrees with
the length declared in the decoded header. -/
theorem readObject_corruption (z : Zlib) (store : ObjStore) (sha d t c : List Nat)
    (raw : List Nat) (n : Int) :
    (validateSHA sha = true → lookupStore store sha = some d → z.decompress d = none →
      readObject z store sha = .error .corrupt) ∧
    (validateSHA sha = true → lookupStore store sha = some d → z.decompress d = some raw →
      parseHeader raw = some (t, n, c) → (c.length : Int) ≠ n →
      readObject z store sha = .error .corrupt) ∧
    (readObject z store sha = .ok (t, c) →
      ∃ d0 raw0 n0, lookupStore store sha = some d0 ∧ z.decompress d0 = some raw0 ∧
        parseHeader raw0 = some (t, n0, c) ∧ (c.length : Int) = n0) := by
  refine ⟨?_, ?_, ?_⟩
  · intro hv hl hd
    simp [readObject, hv, hl, hd]
  · intro hv hl hd hp hlen
    simp [readObject, hv, hl, hd, hp, hlen]
  · intro hok
    simp only [readObject] at hok
    cases hv : validateSHA sha with
    | false => simp [hv] at hok
    | true =>
    simp only [hv, Bool.not_true, Bool.false_eq_true, if_false] at hok
    cases hl : lookupStore store sha with
    | none => simp [hl] at hok
    | some d0 =>
    simp only [hl] at hok
    cases hd : z.decompress d0 with
    | none => simp [hd] at hok
    | some raw =>
    simp only [hd] at hok
    cases hp : parseHeader raw with
    | none => simp [hp] at hok
    | some parsed =>
    obtain ⟨t0, n0, c0⟩ := parsed
    simp only [hp] at hok
    by_cases hlen : (c0.length : Int) ≠ n0
    · rw [if_pos hlen] at hok; simp at hok
    · rw [if_neg hlen] at hok
      simp only [Except.ok.injEq, Prod.mk.injEq] at hok
      obtain ⟨rfl, rfl⟩ := hok
      exact ⟨d0, raw, n0, rfl, hd, hp, by omega⟩

/-- Witness for C7: a stored object whose bytes fail to decompress is read
as corrupt, one whose declared length disagrees with its content is read
as corrupt, and a well-formed stored object is read back with the
declared length. -/
theorem readObject_corruption_witness :
    readObject tagZlib [(strBytes "aaaaaaaaaaaaaaaaaaaaaaaaaaaaaaaaaaaaaaaa", [1])]
      (strBytes "aaaaaaaaaaaaaaaaaaaaaaaaaaaaaaaaaaaaaaaa") = .error .corrupt ∧
    readObject tagZlib
      [(strBytes "aaaaaaaaaaaaaaaaaaaaaaaaaaaaaaaaaaaaaaaa",
        0 :: (strBytes "blob 5" ++ 0 :: [104]))]
      (strBytes "aaaaaaaaaaaaaaaaaaaaaaaaaaaaaaaaaaaaaaaa") = .error .corrupt ∧
    (∃ d0 raw0 n0,
      lookupStore [(strBytes "aaaaaaaaaaaaaaaaaaaaaaaaaaaaaaaaaaaaaaaa",
          0 :: objectFrame blobType [104])]
        (strBytes "aaaaaaaaaaaaaaaaaaaaaaaaaaaaaaaaaaaaaaaa") = some d0 ∧
      tagZlib.decompress d0 = some raw0 ∧
      parseHeader raw0 = some (blobType, n0, [104]) ∧ (([104] : List Nat).length : Int) = n0) :=
  ⟨(readObject_corruption tagZlib _ _ [1] [] [] [] 0).1 (by decide) rfl rfl,
   (readObject_corruption tagZlib _
      (strBytes "aaaaaaaaaaaaaaaaaaaaaaaaaaaaaaaaaaaaaaaa")
      (0 :: (strBytes "blob 5" ++ 0 :: [104])) blobType [104]
      (strBytes "blob 5" ++ 0 :: [104]) 5).2.1 (by decide) rfl rfl (by decide) (by decide),
   (readObject_corruption tagZlib
      [(strBytes "aaaaaaaaaaaaaaaaaaaaaaaaaaaaaaaaaaaaaaaa", 0 :: objectFrame blobType [104])]
      (strBytes "aaaaaaaaaaaaaaaaaaaaaaaaaaaaaaaaaaaaaaaa") [] blobType [104] [] 0).2.2 rfl⟩

/-! ## Lemmas on splitting, joining and trimming -/

theorem splitOnByte_ne_nil {sep : Nat} {s : List Nat} : splitOnByte sep s ≠ [] := by
  cases s with
  | nil => simp [splitOnByte]
  | cons b bs =>
    simp only [splitOnByte]
    cases splitOnByte sep bs with
    | nil => simp
    | cons cur rest =>
      by_cases hb : b = sep <;> simp [hb]

theorem splitOnByte_cons_sep {sep : Nat} {bs : List Nat} :
    splitOnByte sep (sep :: bs) = [] :: splitOnByte sep bs := by
  cases h : splitOnByte sep bs with
  | nil => exact absurd h splitOnByte_ne_nil
  | cons cur rest => simp [splitOnByte, h]

theorem splitOnByte_cons_ne {sep b : Nat} {bs cur : List Nat} {rest : List (List Nat)}
    (hb : b ≠ sep) (h : splitOnByte sep bs = cur :: rest) :
    splitOnByte sep (b :: bs) = (b :: cur) :: rest := by
  simp [splitOnByte, h, hb]

theorem splitOnByte_append_no {sep : Nat} {xs ys cur : List Nat} {rest : List (List Nat)}
    (hxs : ∀ b ∈ xs, b ≠ sep) (h : splitOnByte sep ys = cur :: rest) :
    splitOnByte sep (xs ++ ys) = (xs ++ cur) :: rest := by
  induction xs with
  | nil => simpa using h
  | cons a xs' ih =>
    have ha : a ≠ sep := hxs a (by simp)
    have h' := ih (fun b hb => hxs b (by simp [hb]))
    simpa using splitOnByte_cons_ne ha h'

theorem splitOnByte_peel {sep : Nat} {xs ys : List Nat} (hxs : ∀ b ∈ xs, b ≠ sep) :
    splitOnByte sep (xs ++ sep :: ys) = xs :: splitOnByte sep ys := by
  cases h : splitOnByte sep ys with
  | nil => exact absurd h splitOnByte_ne_nil
  | cons cur rest =>
    have := splitOnByte_append_no hxs (@splitOnByte_cons_sep sep ys)
    rw [this, h]
    simp

theorem joinWith_cons_head {sep : List Nat} {b : Nat} {cur : List Nat}
    {rest : List (List Nat)} :
    joinWith sep ((b :: cur) :: rest) = b :: joinWith sep (cur :: rest) := by
  cases rest <;> simp [joinWith]

theorem joinWith_splitOnByte {sep : Nat} {s : List Nat} :
    joinWith [sep] (splitOnByte sep s) = s := by
  induction s with
  | nil => rfl
  | cons b bs ih =>
    by_cases hb : b = sep
    · rw [hb, splitOnByte_cons_sep]
      cases h : splitOnByte sep bs with
      | nil => exact absurd h splitOnByte_ne_nil
      | cons cur rest =>
        rw [h] at ih
        simp [joinWith, joinWith_cons_head, ih, h]
    · cases h : splitOnByte sep bs with
      | nil => exact absurd h splitOnByte_ne_nil
      | cons cur rest =>
        rw [splitOnByte_cons_ne hb h, joinWith_cons_head]
        rw [h] at ih
        rw [ih]

theorem trimSpace_append_ws {m : List Nat} {w : Nat} (hw : isWsB w = true) :
    trimSpace (m ++ [w]) = trimSpace m := by
  simp [trimSpace, List.reverse_append, List.dropWhile_cons, hw]

/-! ## Lemmas on the commit header scanner -/

theorem splitFirst_none {sep : Nat} {s : List Nat} (h : ∀ b ∈ s, b ≠ sep) :
    splitFirst sep s = none := by
  induction s with
  | nil => rfl
  | cons b bs ih =>
    have hb : b ≠ sep := h b (by simp)
    simp [splitFirst, hb, ih (fun x hx => h x (by simp [hx]))]

theorem splitFirst_at {sep : Nat} {xs ys : List Nat} (h : ∀ b ∈ xs, b ≠ sep) :
    splitFirst sep (xs ++ sep :: ys) = some (xs, ys) := by
  induction xs with
  | nil => simp [splitFirst]
  | cons a xs' ih =>
    have ha : a ≠ sep := h a (by simp)
    simp [splitFirst, ha, ih (fun x hx => h x (by simp [hx]))]

theorem splitN2_at {sep : Nat} {xs ys : List Nat} (h : ∀ b ∈ xs, b ≠ sep) :
    splitN2 sep (xs ++ sep :: ys) = [xs, ys] := by
  simp [splitN2, splitFirst_at h]

theorem applyAuthor_treeSHA {c : CommitInfo} {v : List Nat} :
    (applyAuthor c v).treeSHA = c.treeSHA := by
  simp only [applyAuthor]
  split <;> rfl

theorem applyAuthor_parentSHA {c : CommitInfo} {v : List Nat} :
    (applyAuthor c v).parentSHA = c.parentSHA := by
  simp only [applyAuthor]
  split <;> rfl

theorem applyAuthor_message {c : CommitInfo} {v : List Nat} :
    (applyAuthor c v).message = c.message := by
  simp only [applyAuthor]
  split <;> rfl

theorem headerStep_tree {c : CommitInfo} {t : List Nat} :
    headerStep c (strBytes "tree " ++ t) = { c with treeSHA := t } := by
  have h : splitN2 32 (strBytes "tree" ++ 32 :: t) = [strBytes "tree", t] :=
    splitN2_at (by decide)
  have hsh : strBytes "tree " ++ t = strBytes "tree" ++ 32 :: t := rfl
  rw [hsh]
  simp only [headerStep, h]
  simp

theorem headerStep_parent {c : CommitInfo} {p : List Nat} :
    headerStep c (strBytes "parent " ++ p) = { c with parentSHA := p } := by
  have h : splitN2 32 (strBytes "parent" ++ 32 :: p) = [strBytes "parent", p] :=
    splitN2_at (by decide)
  have hsh : strBytes "parent " ++ p = strBytes "parent" ++ 32 :: p := rfl
  rw [hsh]
  simp only [headerStep, h]
  rw [if_neg (by decide)]
  simp

theorem headerStep_author {c : CommitInfo} {v : List Nat} :
    headerStep c (strBytes "author " ++ v) = applyAuthor c v := by
  have h : splitN2 32 (strBytes "author" ++ 32 :: v) = [strBytes "author", v] :=
    splitN2_at (by decide)
  have hsh : strBytes "author " ++ v = strBytes "author" ++ 32 :: v := rfl
  rw [hsh]
  simp only [headerStep, h]
  rw [if_neg (by decide), if_neg (by decide)]
  simp

theorem headerStep_committer {c : CommitInfo} {v : List Nat} :
    headerStep c (strBytes "committer " ++ v) = c := by
  have h : splitN2 32 (strBytes "committer" ++ 32 :: v) = [strBytes "committer", v] :=
    splitN2_at (by decide)
  have hsh : strBytes "committer " ++ v = strBytes "committer" ++ 32 :: v := rfl
  rw [hsh]
  simp only [headerStep, h]
  rw [if_neg (by decide), if_neg (by decide), if_neg (by decide)]

theorem headerStep_message {c : CommitInfo} {line : List Nat} :
    (headerStep c line).message = c.message := by
  simp only [headerStep]
  split
  · split_ifs <;> first | rfl | exact applyAuthor_message
  · rfl

theorem parseLoop_cons_ne {line : List Nat} {rest : List (List Nat)} {i : Nat}
    {c : CommitInfo} (h : line ≠ []) :
    parseLoop (line :: rest) i c = parseLoop rest (i + 1) (headerStep c line) := by
  simp [parseLoop, h]

theorem parseLoop_blank {rest : List (List Nat)} {i : Nat} {c : CommitInfo} :
    parseLoop ([] :: rest) i c = (c, some (i + 1)) := by
  simp [parseLoop]

theorem parseLoop_no_blank {lines : List (List Nat)} {i : Nat} {c : CommitInfo}
    (h : ∀ l ∈ lines, l ≠ []) :
    (parseLoop lines i c).2 = none ∧ (parseLoop lines i c).1.message = c.message := by
  induction lines generalizing i c with
  | nil => simp [parseLoop]
  | cons line rest ih =>
    have hl : line ≠ [] := h line (by simp)
    rw [parseLoop_cons_ne hl]
    have := ih (i := i + 1) (c := headerStep c line) (fun l hl2 => h l (by simp [hl2]))
    exact ⟨this.1, this.2.trans headerStep_message⟩

/-! ## No-newline facts for the commit writer -/

theorem isHexB_ne_nl {b : Nat} (h : isHexB b = true) : b ≠ 10 := by
  simp [isHexB] at h; omega

theorem validateSHA_no_nl {s : List Nat} (h : validateSHA s = true) :
    ∀ b ∈ s, b ≠ 10 := by
  intro b hb
  simp only [validateSHA, Bool.and_eq_true, decide_eq_true_eq, List.all_eq_true] at h
  exact isHexB_ne_nl (h.2 b hb)

theorem natDec_ne_nl {n : Nat} : ∀ b ∈ natDec n, b ≠ 10 := by
  intro b hb
  have := natDec_digits b hb
  simp [isDigitB] at this
  omega

theorem intDec_ne_nl {x : Int} : ∀ b ∈ intDec x, b ≠ 10 := by
  intro b hb
  simp only [intDec] at hb
  by_cases hx : x < 0
  · rw [if_pos hx] at hb
    rcases List.mem_cons.mp hb with h | h
    · omega
    · exact natDec_ne_nl b h
  · rw [if_neg hx] at hb
    exact natDec_ne_nl b hb

theorem authorStamp_ne_nl {now : Int} : ∀ b ∈ authorStamp now, b ≠ 10 := by
  intro b hb
  simp only [authorStamp, List.mem_append, List.mem_cons] at hb
  rcases hb with h | h | h | h
  · exact (by decide : ∀ x ∈ gvcAuthor, x ≠ 10) b h
  · omega
  · exact intDec_ne_nl b h
  · exact (by decide : ∀ x ∈ strBytes " +0000", x ≠ 10) b h

/-! ## C4 and C9 -/

theorem authorLines_split {now : Int} {m : List Nat} :
    splitOnByte 10
      ((strBytes "author " ++ authorStamp now) ++ 10 ::
        ((strBytes "committer " ++ authorStamp now) ++ 10 :: (10 :: (m ++ [10]))))
      = (strBytes "author " ++ authorStamp now) ::
        (strBytes "committer " ++ authorStamp now) :: [] :: splitOnByte 10 (m ++ [10]) := by
  have hA : ∀ b ∈ strBytes "author " ++ authorStamp now, b ≠ 10 := by
    intro b hb
    rcases List.mem_append.mp hb with h | h
    · exact (by decide : ∀ x ∈ strBytes "author ", x ≠ 10) b h
    · exact authorStamp_ne_nl b h
  have hC : ∀ b ∈ strBytes "committer " ++ authorStamp now, b ≠ 10 := by
    intro b hb
    rcases List.mem_append.mp hb with h | h
    · exact (by decide : ∀ x ∈ strBytes "committer ", x ≠ 10) b h
    · exact authorStamp_ne_nl b h
  rw [splitOnByte_peel hA, splitOnByte_peel hC, splitOnByte_cons_sep]

theorem authorLines_loop {now : Int} {ms : List (List Nat)} {i : Nat} {c : CommitInfo} :
    parseLoop ((strBytes "author " ++ authorStamp now) ::
        (strBytes "committer " ++ authorStamp now) :: [] :: ms) i c
      = (applyAuthor c (authorStamp now), some (i + 3)) := by
  rw [parseLoop_cons_ne (by simp [show strBytes "author " = [97, 117, 116, 104, 111, 114, 32] from rfl]),
    headerStep_author,
    parseLoop_cons_ne (by simp [show strBytes "committer " = [99, 111, 109, 109, 105, 116, 116, 101, 114, 32] from rfl]),
    headerStep_committer, parseLoop_blank]

/-- C4: parsing the content produced by `commitTree` recovers the tree
hash, the parent (empty when the parent was the empty sentinel) and the
message up to whitespace trimming; `commitTree` itself succeeds on such
arguments and stores exactly that content. -/
theorem parseCommit_commitContent (z : Zlib) (store : ObjStore)
    (sha t p m : List Nat) (now : Int)
    (ht : validateSHA t = true) (hp : p = [] ∨ validateSHA p = true) :
    (parseCommit sha (commitContent t p m now)).1.treeSHA = t ∧
    (parseCommit sha (commitContent t p m now)).1.parentSHA = p ∧
    (parseCommit sha (commitContent t p m now)).1.message = trimSpace m ∧
    commitTree z store t p m now
      = .ok (writeObject z store commitType (commitContent t p m now)) := by
  have htree : ∀ b ∈ strBytes "tree " ++ t, b ≠ 10 := by
    intro b hb
    rcases List.mem_append.mp hb with h | h
    · exact (by decide : ∀ x ∈ strBytes "tree ", x ≠ 10) b h
    · exact validateSHA_no_nl ht b h
  have hmslen : 0 < (splitOnByte 10 (m ++ [10])).length :=
    List.length_pos.mpr splitOnByte_ne_nil
  have hctree : commitTree z store t p m now
      = .ok (writeObject z store commitType (commitContent t p m now)) := by
    have h1 : ¬ validateSHA t = false := by simp [ht]
    have h2 : ¬ (p ≠ [] ∧ validateSHA p = false) := by
      rcases hp with h | h
      · simp [h]
      · simp [h]
    simp only [commitTree, if_neg h1, if_neg h2]
  rcases hp with hpe | hpv
  · -- root commit: no parent line
    subst hpe
    have hc : commitContent t [] m now
        = (strBytes "tree " ++ t) ++ 10 ::
          ((strBytes "author " ++ authorStamp now) ++ 10 ::
            ((strBytes "committer " ++ authorStamp now) ++ 10 :: (10 :: (m ++ [10])))) := by
      simp [commitContent]
    have hlines : splitOnByte 10 (commitContent t [] m now)
        = (strBytes "tree " ++ t) :: (strBytes "author " ++ authorStamp now) ::
          (strBytes "committer " ++ authorStamp now) :: [] :: splitOnByte 10 (m ++ [10]) := by
      rw [hc, splitOnByte_peel htree, authorLines_split]
    have hloop : parseLoop (splitOnByte 10 (commitContent t [] m now)) 0
        (emptyCommitInfo sha)
        = (applyAuthor { emptyCommitInfo sha with treeSHA := t } (authorStamp now), some 4) := by
      rw [hlines,
        parseLoop_cons_ne (by simp [show strBytes "tree " = [116, 114, 101, 101, 32] from rfl]),
        headerStep_tree, authorLines_loop]
    have hpc : (parseCommit sha (commitContent t [] m now)).1
        = { applyAuthor { emptyCommitInfo sha with treeSHA := t } (authorStamp now) with
            message := trimSpace m } := by
      simp only [parseCommit]
      rw [hloop]
      simp only [finishMessage]
      rw [hlines]
      rw [if_pos (by simp only [List.length_cons]; omega)]
      simp only [List.drop_succ_cons, List.drop_zero, joinWith_splitOnByte,
        trimSpace_append_ws (show isWsB 10 = true by decide)]
    rw [hpc]
    refine ⟨?_, ?_, rfl, hctree⟩
    · simp [applyAuthor_treeSHA]
    · simp [applyAuthor_parentSHA, emptyCommitInfo]
  · -- child commit: one parent line
    have hpar : ∀ b ∈ strBytes "parent " ++ p, b ≠ 10 := by
      intro b hb
      rcases List.mem_append.mp hb with h | h
      · exact (by decide : ∀ x ∈ strBytes "parent ", x ≠ 10) b h
      · exact validateSHA_no_nl hpv b h
    have hpne : p ≠ [] := by
      intro he
      rw [he] at hpv
      exact absurd hpv (by decide)
    have hc : commitContent t p m now
        = (strBytes "tree " ++ t) ++ 10 ::
          ((strBytes "parent " ++ p) ++ 10 ::
            ((strBytes "author " ++ authorStamp now) ++ 10 ::
              ((strBytes "committer " ++ authorStamp now) ++ 10 :: (10 :: (m ++ [10]))))) := by
      simp [commitContent, hpne]
    have hlines : splitOnByte 10 (commitContent t p m now)
        = (strBytes "tree " ++ t) :: (strBytes "parent " ++ p) ::
          (strBytes "author " ++ authorStamp now) ::
          (strBytes "committer " ++ authorStamp now) :: [] :: splitOnByte 10 (m ++ [10]) := by
      rw [hc, splitOnByte_peel htree, splitOnByte_peel hpar, authorLines_split]
    have hloop : parseLoop (splitOnByte 10 (commitContent t p m now)) 0
        (emptyCommitInfo sha)
        = (applyAuthor { emptyCommitInfo sha with treeSHA := t, parentSHA := p }
            (authorStamp now), some 5) := by
      rw [hlines,
        parseLoop_cons_ne (by simp [show strBytes "tree " = [116, 114, 101, 101, 32] from rfl]),
        headerStep_tree,
        parseLoop_cons_ne (by simp [show strBytes "parent " = [112, 97, 114, 101, 110, 116, 32] from rfl]),
        headerStep_parent, authorLines_loop]
    have hpc : (parseCommit sha (commitContent t p m now)).1
        = { applyAuthor { emptyCommitInfo sha with treeSHA := t, parentSHA := p }
              (authorStamp now) with
            message := trimSpace m } := by
      simp only [parseCommit]
      rw [hloop]
      simp only [finishMessage]
      rw [hlines]
      rw [if_pos (by simp only [List.length_cons]; omega)]
      simp only [List.drop_succ_cons, List.drop_zero, joinWith_splitOnByte,
        trimSpace_append_ws (show isWsB 10 = true by decide)]
    rw [hpc]
    refine ⟨?_, ?_, rfl, hctree⟩
    · simp [applyAuthor_treeSHA]
    · simp [applyAuthor_parentSHA, emptyCommitInfo]

/-- Witness for C4 at a concrete commit. -/
theorem parseCommit_commitContent_witness :
    (parseCommit (strBytes "cc")
        (commitContent (strBytes "aaaaaaaaaaaaaaaaaaaaaaaaaaaaaaaaaaaaaaaa")
          (strBytes "bbbbbbbbbbbbbbbbbbbbbbbbbbbbbbbbbbbbbbbb") (strBytes "hello") 5)).1.treeSHA
      = strBytes "aaaaaaaaaaaaaaaaaaaaaaaaaaaaaaaaaaaaaaaa" ∧
    (parseCommit (strBytes "cc")
        (commitContent (strBytes "aaaaaaaaaaaaaaaaaaaaaaaaaaaaaaaaaaaaaaaa")
          (strBytes "bbbbbbbbbbbbbbbbbbbbbbbbbbbbbbbbbbbbbbbb") (strBytes "hello") 5)).1.parentSHA
      = strBytes "bbbbbbbbbbbbbbbbbbbbbbbbbbbbbbbbbbbbbbbb" ∧
    (parseCommit (strBytes "cc")
        (commitContent (strBytes "aaaaaaaaaaaaaaaaaaaaaaaaaaaaaaaaaaaaaaaa")
          (strBytes "bbbbbbbbbbbbbbbbbbbbbbbbbbbbbbbbbbbbbbbb") (strBytes "hello") 5)).1.message
      = trimSpace (strBytes "hello") ∧
    commitTree idZlib [] (strBytes "aaaaaaaaaaaaaaaaaaaaaaaaaaaaaaaaaaaaaaaa")
        (strBytes "bbbbbbbbbbbbbbbbbbbbbbbbbbbbbbbbbbbbbbbb") (strBytes "hello") 5
      = .ok (writeObject idZlib [] commitType
          (commitContent (strBytes "aaaaaaaaaaaaaaaaaaaaaaaaaaaaaaaaaaaaaaaa")
            (strBytes "bbbbbbbbbbbbbbbbbbbbbbbbbbbbbbbbbbbbbbbb") (strBytes "hello") 5)) :=
  parseCommit_commitContent idZlib [] (strBytes "cc")
    (strBytes "aaaaaaaaaaaaaaaaaaaaaaaaaaaaaaaaaaaaaaaa")
    (strBytes "bbbbbbbbbbbbbbbbbbbbbbbbbbbbbbbbbbbbbbbb") (strBytes "hello") 5
    (by decide) (Or.inr (by decide))

/-- C9: `parseCommit` is total — it returns a commit record and no error
for every input; header lines with no space are skipped, lines with
unknown keys are skipped, the message stays empty when no blank line
exists, and an unparsable timestamp token maps to zero. -/
theorem parseCommit_total (sha content line s : List Nat) (rest : List (List Nat))
    (i : Nat) (c : CommitInfo) :
    (parseCommit sha content).2 = none ∧
    (line ≠ [] → (∀ b ∈ line, b ≠ 32) →
      parseLoop (line :: rest) i c = parseLoop rest (i + 1) c) ∧
    (line ≠ [] → ∀ key value, splitN2 32 line = [key, value] →
      key ≠ strBytes "tree" → key ≠ strBytes "parent" → key ≠ strBytes "author" →
      parseLoop (line :: rest) i c = parseLoop rest (i + 1) c) ∧
    ((∀ l ∈ splitOnByte 10 content, l ≠ []) → (parseCommit sha content).1.message = []) ∧
    (wellFormedInt64 s = false → parseInt64 s = 0) := by
  refine ⟨rfl, ?_, ?_, ?_, ?_⟩
  · intro hne hns
    rw [parseLoop_cons_ne hne]
    have : headerStep c line = c := by
      simp [headerStep, splitN2, splitFirst_none hns]
    rw [this]
  · intro hne key value hsp h1 h2 h3
    rw [parseLoop_cons_ne hne]
    have : headerStep c line = c := by
      simp [headerStep, hsp, h1, h2, h3]
    rw [this]
  · intro hblank
    have h := parseLoop_no_blank (i := 0) (c := emptyCommitInfo sha) hblank
    rcases hpl : parseLoop (splitOnByte 10 content) 0 (emptyCommitInfo sha) with ⟨cc, oo⟩
    rw [hpl] at h
    have h1 : oo = none := h.1
    have h2 : cc.message = [] := h.2
    subst h1
    simp only [parseCommit, hpl, finishMessage]
    exact h2
  · intro h
    simp [parseInt64, h]

/-- Witness for C9 at concrete inputs. -/
theorem parseCommit_total_witness :
    parseLoop [strBytes "xyz"] 0 (emptyCommitInfo []) =
      parseLoop [] 1 (emptyCommitInfo []) ∧
    (parseCommit [] (strBytes "tree x")).1.message = [] ∧
    parseInt64 (strBytes "zz") = 0 := by
  have h := parseCommit_total [] (strBytes "tree x") (strBytes "xyz") (strBytes "zz")
    [] 0 (emptyCommitInfo [])
  exact ⟨h.2.1 (by decide) (by decide), h.2.2.2.1 (by decide), h.2.2.2.2 (by decide)⟩

/-! ## Byte-string ordering (Go string `<`, used by `sort.Slice`) -/

/-- Go's `<` on strings: byte-wise lexicographic, strict. -/
def bytesLtB : List Nat → List Nat → Bool
  | [], [] => false
  | [], _ :: _ => true
  | _ :: _, [] => false
  | a :: as, b :: bs => if a < b then true else if b < a then false else bytesLtB as bs

theorem bytesLtB_asymm : ∀ {a b : List Nat},
    bytesLtB a b = true → bytesLtB b a = true → False := by
  intro a
  induction a with
  | nil =>
    intro b h1 h2
    cases b <;> simp [bytesLtB] at h1 h2
  | cons x xs ih =>
    intro b h1 h2
    cases b with
    | nil => simp [bytesLtB] at h1
    | cons y ys =>
      simp only [bytesLtB] at h1 h2
      by_cases hxy : x < y
      · have hyx : ¬ y < x := by omega
        simp [hxy, hyx] at h2
      · by_cases hyx : y < x
        · simp [hxy, hyx] at h1
        · simp [hxy, hyx] at h1 h2
          exact ih h1 h2

theorem bytesLtB_trans : ∀ {a b c : List Nat},
    bytesLtB a b = true → bytesLtB b c = true → bytesLtB a c = true := by
  intro a
  induction a with
  | nil =>
    intro b c h1 h2
    cases b with
    | nil => simp [bytesLtB] at h1
    | cons y ys =>
      cases c with
      | nil => simp [bytesLtB] at h2
      | cons z zs => simp [bytesLtB]
  | cons x xs ih =>
    intro b c h1 h2
    cases b with
    | nil => simp [bytesLtB] at h1
    | cons y ys =>
      cases c with
      | nil => simp [bytesLtB] at h2
      | cons z zs =>
        simp only [bytesLtB] at h1 h2 ⊢
        by_cases hxy : x < y
        · by_cases hyz : y < z
          · have : x < z := by omega
            simp [this]
          · by_cases hzy : z < y
            · simp [hyz, hzy] at h2
            · have hyz2 : y = z := by omega
              subst hyz2
              simp [hxy]
        · by_cases hyx : y < x
          · simp [hxy, hyx] at h1
          · have hxy2 : x = y := by omega
            subst hxy2
            simp [hxy] at h1
            by_cases hyz : x < z
            · simp [hyz]
            · by_cases hzy : z < x
              · simp [hyz, hzy] at h2
              · simp [hyz, hzy] at h2 ⊢
                exact ih h1 h2

theorem bytesLtB_connex : ∀ {a b : List Nat},
    bytesLtB a b = false → bytesLtB b a = false → a = b := by
  intro a
  induction a with
  | nil =>
    intro b h1 _
    cases b with
    | nil => rfl
    | cons y ys => simp [bytesLtB] at h1
  | cons x xs ih =>
    intro b h1 h2
    cases b with
    | nil => simp [bytesLtB] at h2
    | cons y ys =>
      simp only [bytesLtB] at h1 h2
      by_cases hxy : x < y
      · simp [hxy] at h1
      · by_cases hyx : y < x
        · simp [hxy, hyx] at h2
        · have hxy2 : x = y := by omega
          subst hxy2
          simp [hxy] at h1 h2
          rw [ih h1 h2]

/-! ## Keyed sorting (model of `sort.Slice` with a byte-string key) -/

/-- Postcondition order of `sort.Slice(l, less)` with
`less i j = key i < key j`: non-strict byte order on the keys. -/
def keyLe {α : Type} (κ : α → List Nat) (x y : α) : Prop :=
  bytesLtB (κ y) (κ x) = false

instance keyLeDec {α : Type} (κ : α → List Nat) : DecidableRel (keyLe κ) :=
  fun x y => instDecidableEqBool (bytesLtB (κ y) (κ x)) false

instance keyLeTotal {α : Type} (κ : α → List Nat) : IsTotal α (keyLe κ) := by
  constructor
  intro x y
  unfold keyLe
  cases h : bytesLtB (κ y) (κ x) with
  | false => exact Or.inl rfl
  | true =>
    right
    cases h2 : bytesLtB (κ x) (κ y) with
    | false => rfl
    | true => exact absurd (bytesLtB_asymm h h2) (fun f => f)

instance keyLeTrans {α : Type} (κ : α → List Nat) : IsTrans α (keyLe κ) := by
  constructor
  intro a b c h1 h2
  unfold keyLe at *
  cases h3 : bytesLtB (κ c) (κ a) with
  | false => rfl
  | true =>
    exfalso
    cases h4 : bytesLtB (κ b) (κ c) with
    | true =>
      have h5 := bytesLtB_trans h4 h3
      rw [h5] at h1
      exact absurd h1 (by simp)
    | false =>
      have hcb : κ c = κ b := bytesLtB_connex h2 h4
      rw [hcb] at h3
      rw [h3] at h1
      exact absurd h1 (by simp)

/-- Strict key order, for uniqueness of the sorted permutation. -/
def keyLt {α : Type} (κ : α → List Nat) (x y : α) : Prop :=
  bytesLtB (κ x) (κ y) = true

instance keyLtAntisymm {α : Type} (κ : α → List Nat) : IsAntisymm α (keyLt κ) :=
  ⟨fun _ _ h1 h2 => (bytesLtB_asymm h1 h2).elim⟩

/-- The sorting step shared by `writeTree` and `createTreeFromIndex`. -/
def sortByKey {α : Type} (κ : α → List Nat) (l : List α) : List α :=
  List.insertionSort (keyLe κ) l

theorem sorted_strict {α : Type} {κ : α → List Nat} {l : List α}
    (hs : List.Pairwise (keyLe κ) l) (hn : (l.map κ).Nodup) :
    List.Pairwise (keyLt κ) l := by
  induction l with
  | nil => exact List.Pairwise.nil
  | cons a l ih =>
    rw [List.pairwise_cons] at hs ⊢
    rw [List.map_cons, List.nodup_cons] at hn
    refine ⟨?_, ih hs.2 hn.2⟩
    intro b hb
    have hle := hs.1 b hb
    have hne : κ a ≠ κ b := fun he => hn.1 (he ▸ List.mem_map_of_mem κ hb)
    unfold keyLe at hle
    unfold keyLt
    cases h : bytesLtB (κ a) (κ b) with
    | true => rfl
    | false => exact absurd (bytesLtB_connex h hle) hne

theorem sortByKey_eq_of_perm {α : Type} (κ : α → List Nat) {l1 l2 : List α}
    (hp : l1.Perm l2) (hn : (l1.map κ).Nodup) :
    sortByKey κ l1 = sortByKey κ l2 := by
  have p1 : (sortByKey κ l1).Perm l1 := List.perm_insertionSort _ _
  have p2 : (sortByKey κ l2).Perm l2 := List.perm_insertionSort _ _
  have p : (sortByKey κ l1).Perm (sortByKey κ l2) := p1.trans (hp.trans p2.symm)
  have hn2 : (l2.map κ).Nodup := ((hp.map κ).nodup_iff).mp hn
  have hn1' : ((sortByKey κ l1).map κ).Nodup := ((p1.map κ).nodup_iff).mpr hn
  have hn2' : ((sortByKey κ l2).map κ).Nodup := ((p2.map κ).nodup_iff).mpr hn2
  have s1 : List.Pairwise (keyLt κ) (sortByKey κ l1) :=
    sorted_strict (List.sorted_insertionSort _ _) hn1'
  have s2 : List.Pairwise (keyLt κ) (sortByKey κ l2) :=
    sorted_strict (List.sorted_insertionSort _ _) hn2'
  exact List.eq_of_perm_of_sorted p s1 s2

/-! ## Tree codec (`TreeEntry`, `writeTree`, `createTreeFromIndex`) -/

/-- Go `TreeEntry`. The `type` field plays no part in the encoding. -/
structure TreeEntry where
  mode : List Nat
  name : List Nat
  sha : List Nat
  type : List Nat
  deriving DecidableEq, Repr

/-- One encoded entry: `<mode> <name>\x00<20-byte binary SHA>`; the hex id
is decoded with the error ignored, exactly as the source does. -/
def encodeTreeEntry (e : TreeEntry) : List Nat :=
  e.mode ++ 32 :: (e.name ++ 0 :: decodeHexLossy e.sha)

/-- Concatenation of the encoded entries (no separator, no count). -/
def encodeTreeEntries (l : List TreeEntry) : List Nat :=
  (l.map encodeTreeEntry).flatten

/-- The `sort.Slice` call of `writeTree`: entries ordered by `Name`. -/
def sortTreeEntries : List TreeEntry → List TreeEntry :=
  sortByKey (fun e => e.name)

/-- A directory tree as handed to `writeTree` by `os.ReadDir`. -/
inductive FsNode where
  | file (content : List Nat)
  | dir (children : List (List Nat × FsNode))
  deriving Repr

mutual

/-- Go `writeTree`: read the directory (a file path fails), build the
entry list (post-order child writes), sort by name, encode, store. -/
def writeTree (z : Zlib) (store : ObjStore) : FsNode → Except GvcErr (List Nat × ObjStore)
  | .file _ => .error .ioError
  | .dir children =>
    match writeTreeChildren z store children with
    | .error e => .error e
    | .ok (entries, store1) =>
      .ok (writeObject z store1 treeType (encodeTreeEntries (sortTreeEntries entries)))

/-- The loop over `os.ReadDir` entries: skip `.gvc`, recurse into
subdirectories (mode `40000`), write blobs for files (mode `100644`). -/
def writeTreeChildren (z : Zlib) (store : ObjStore) :
    List (List Nat × FsNode) → Except GvcErr (List TreeEntry × ObjStore)
  | [] => .ok ([], store)
  | (name, node) :: rest =>
    if name = strBytes ".gvc" then writeTreeChildren z store rest
    else
      match node with
      | .file data =>
        let w := writeObject z store blobType data
        match writeTreeChildren z w.2 rest with
        | .error e => .error e
        | .ok (entries, store2) =>
          .ok (⟨strBytes "100644", name, w.1, blobType⟩ :: entries, store2)
      | .dir g =>
        match writeTree z store (.dir g) with
        | .error e => .error e
        | .ok (sha, store1) =>
          match writeTreeChildren z store1 rest with
          | .error e => .error e
          | .ok (entries, store2) =>
            .ok (⟨strBytes "40000", name, sha, treeType⟩ :: entries, store2)

end

/-- Go `IndexEntry`: one staged file. -/
structure IndexEntry where
  path : List Nat
  sha : List Nat
  mode : List Nat
  size : Int
  modTime : Int
  deriving DecidableEq, Repr

/-- Go `Index`: the staging area. -/
structure Index where
  entries : List IndexEntry
  deriving DecidableEq, Repr

/-- Go `readIndex` on the persisted file: an absent file is an empty
index; the JSON round trip is the identity on the model. -/
def readIndexPure : Option Index → Index
  | none => ⟨[]⟩
  | some i => i

/-- Go `filepath.Base` (separator `/`): empty path is `"."`, trailing
separators are removed, all-separator paths give `"/"`, otherwise the
part after the last separator. -/
def baseName (p : List Nat) : List Nat :=
  if p = [] then strBytes "."
  else
    let q := (p.reverse.dropWhile (fun b => b == 47)).reverse
    if q = [] then [47]
    else (q.reverse.takeWhile (fun b => b != 47)).reverse

/-- The tree entries produced from the index: entries sorted by full
`path`, each named by the path's final component only. -/
def indexTreeEntries (index : Index) : List TreeEntry :=
  (sortByKey (fun (e : IndexEntry) => e.path) index.entries).map
    (fun e => ⟨e.mode, baseName e.path, e.sha, blobType⟩)

/-- Go `createTreeFromIndex`: fails on an empty staging area, otherwise
encodes the flattened, path-sorted entries and stores the tree object. -/
def createTreeFromIndex (z : Zlib) (store : ObjStore) (idxFile : Option Index) :
    Except GvcErr (List Nat × ObjStore) :=
  let index := readIndexPure idxFile
  if index.entries = [] then .error .emptyIndex
  else .ok (writeObject z store treeType (encodeTreeEntries (indexTreeEntries index)))

/-- Is an `Except` a success? -/
def exceptIsOk {ε β : Type} : Except ε β → Bool
  | .ok _ => true
  | .error _ => false

/-- Adjacent names in non-descending byte order. -/
def namesAscB : List (List Nat) → Bool
  | a :: b :: rest => !bytesLtB b a && namesAscB (b :: rest)
  | _ => true

/-! ## C2 and C3 -/

/-- Counterexample to C2 as stated: building a tree from an empty staging
index does not succeed with the empty-tree hash — it fails with the
empty-index error (`"nothing to commit (staging area is empty)"`). -/
theorem createTreeFromIndex_empty_fails :
    createTreeFromIndex idZlib [] (some ⟨[]⟩) = .error .emptyIndex ∧
    createTreeFromIndex idZlib [] none = .error .emptyIndex := ⟨rfl, rfl⟩

/-- C2 (amended): building a tree from an empty directory succeeds with
the tree hash `4b825dc642cb6eb9a060e54bf8d69288fbee4904` (the hash of a
tree object with zero entries), while building a tree from an empty
staging index fails with the empty-index error. -/
theorem writeTree_empty_hash (z : Zlib) (store : ObjStore) :
    writeTree z store (FsNode.dir [])
      = .ok (strBytes "4b825dc642cb6eb9a060e54bf8d69288fbee4904",
          (strBytes "4b825dc642cb6eb9a060e54bf8d69288fbee4904",
           z.compress (strBytes "tree " ++ [48, 0])) :: store) ∧
    createTreeFromIndex z store (some ⟨[]⟩) = .error .emptyIndex ∧
    createTreeFromIndex z store none = .error .emptyIndex := by
  refine ⟨?_, rfl, rfl⟩
  have hsha : sha1hex (strBytes "tree " ++ [48, 0])
      = strBytes "4b825dc642cb6eb9a060e54bf8d69288fbee4904" := by decide
  have hframe : objectFrame treeType ([] : List Nat) = strBytes "tree " ++ [48, 0] := by
    decide
  simp only [writeTree, writeTreeChildren]
  simp [writeObject, sortTreeEntries, sortByKey, encodeTreeEntries, List.insertionSort,
    hsha, hframe]

theorem namesAscB_of_pairwise {α : Type} {κ : α → List Nat} {l : List α}
    (h : List.Pairwise (keyLe κ) l) : namesAscB (l.map κ) = true := by
  induction l with
  | nil => rfl
  | cons a l ih =>
    cases l with
    | nil => rfl
    | cons b t =>
      rw [List.pairwise_cons] at h
      have hab : bytesLtB (κ b) (κ a) = false := h.1 b (by simp)
      have ht := ih h.2
      simp only [List.map_cons, namesAscB, hab, Bool.not_false, Bool.true_and]
      simp only [List.map_cons] at ht
      exact ht

/-- Counterexample to C3 as stated: a tree built from the staging index
is ordered by the staged path, and since the entry name is only the final
path component, the encoded entry names need not be in ascending order —
paths `a/z` and `b/a` produce the name sequence `z`, `a`. -/
theorem indexTree_names_not_sorted :
    namesAscB ((indexTreeEntries ⟨[
        ⟨strBytes "a/z", strBytes "aaaaaaaaaaaaaaaaaaaaaaaaaaaaaaaaaaaaaaaa",
          strBytes "100644", 1, 0⟩,
        ⟨strBytes "b/a", strBytes "bbbbbbbbbbbbbbbbbbbbbbbbbbbbbbbbbbbbbbbb",
          strBytes "100644", 1, 0⟩]⟩).map (fun e => e.name)) = false ∧
    exceptIsOk (createTreeFromIndex idZlib [] (some ⟨[
        ⟨strBytes "a/z", strBytes "aaaaaaaaaaaaaaaaaaaaaaaaaaaaaaaaaaaaaaaa",
          strBytes "100644", 1, 0⟩,
        ⟨strBytes "b/a", strBytes "bbbbbbbbbbbbbbbbbbbbbbbbbbbbbbbbbbbbbbbb",
          strBytes "100644", 1, 0⟩]⟩)) = true := by decide

/-- C3 (amended): a tree built from a directory walk has its encoded
entries in ascending byte-wise name order, and for both builders the
encoded byte sequence and hence the tree hash are invariant under
permutation of the input entries (given the unique-names invariant for
walk entries, unique paths for index entries). A tree built from the
staging index is ordered by full path, not by entry name. -/
theorem treeEncoding_deterministic (z : Zlib) (st1 st2 : ObjStore)
    (l1 l2 : List TreeEntry) (i1 i2 : List IndexEntry)
    (hp : l1.Perm l2) (hn : (l1.map (fun e => e.name)).Nodup)
    (hip : i1.Perm i2) (hin : (i1.map (fun e => e.path)).Nodup) :
    namesAscB ((sortTreeEntries l1).map (fun e => e.name)) = true ∧
    encodeTreeEntries (sortTreeEntries l1) = encodeTreeEntries (sortTreeEntries l2) ∧
    (writeObject z st1 treeType (encodeTreeEntries (sortTreeEntries l1))).1
      = (writeObject z st2 treeType (encodeTreeEntries (sortTreeEntries l2))).1 ∧
    encodeTreeEntries (indexTreeEntries ⟨i1⟩) = encodeTreeEntries (indexTreeEntries ⟨i2⟩) := by
  have h2 : sortTreeEntries l1 = sortTreeEntries l2 := by
    unfold sortTreeEntries
    exact sortByKey_eq_of_perm (fun e => e.name) hp hn
  have h4 : sortByKey (fun (e : IndexEntry) => e.path) i1
      = sortByKey (fun (e : IndexEntry) => e.path) i2 :=
    sortByKey_eq_of_perm (fun e => e.path) hip hin
  refine ⟨?_, by rw [h2], by rw [h2]; rfl, ?_⟩
  · exact namesAscB_of_pairwise (List.sorted_insertionSort _ _)
  · simp only [indexTreeEntries, h4]

/-- Witness for C3 (amended) at concrete permuted inputs. -/
theorem treeEncoding_deterministic_witness :
    namesAscB ((sortTreeEntries [
        ⟨strBytes "100644", strBytes "b", strBytes "ff", blobType⟩,
        ⟨strBytes "100644", strBytes "a", strBytes "ee", blobType⟩]).map
      (fun e => e.name)) = true ∧
    encodeTreeEntries (sortTreeEntries [
        ⟨strBytes "100644", strBytes "b", strBytes "ff", blobType⟩,
        ⟨strBytes "100644", strBytes "a", strBytes "ee", blobType⟩])
      = encodeTreeEntries (sortTreeEntries [
        ⟨strBytes "100644", strBytes "a", strBytes "ee", blobType⟩,
        ⟨strBytes "100644", strBytes "b", strBytes "ff", blobType⟩]) ∧
    (writeObject idZlib [] treeType (encodeTreeEntries (sortTreeEntries [
        ⟨strBytes "100644", strBytes "b", strBytes "ff", blobType⟩,
        ⟨strBytes "100644", strBytes "a", strBytes "ee", blobType⟩]))).1
      = (writeObject idZlib [(strBytes "k", [3])] treeType
          (encodeTreeEntries (sortTreeEntries [
            ⟨strBytes "100644", strBytes "a", strBytes "ee", blobType⟩,
            ⟨strBytes "100644", strBytes "b", strBytes "ff", blobType⟩]))).1 ∧
    encodeTreeEntries (indexTreeEntries ⟨[
        ⟨strBytes "p", strBytes "ee", strBytes "100644", 1, 0⟩,
        ⟨strBytes "q", strBytes "ff", strBytes "100644", 1, 0⟩]⟩)
      = encodeTreeEntries (indexTreeEntries ⟨[
        ⟨strBytes "q", strBytes "ff", strBytes "100644", 1, 0⟩,
        ⟨strBytes "p", strBytes "ee", strBytes "100644", 1, 0⟩]⟩) :=
  treeEncoding_deterministic idZlib [] [(strBytes "k", [3])]
    [⟨strBytes "100644", strBytes "b", strBytes "ff", blobType⟩,
     ⟨strBytes "100644", strBytes "a", strBytes "ee", blobType⟩]
    [⟨strBytes "100644", strBytes "a", strBytes "ee", blobType⟩,
     ⟨strBytes "100644", strBytes "b", strBytes "ff", blobType⟩]
    [⟨strBytes "p", strBytes "ee", strBytes "100644", 1, 0⟩,
     ⟨strBytes "q", strBytes "ff", strBytes "100644", 1, 0⟩]
    [⟨strBytes "q", strBytes "ff", strBytes "100644", 1, 0⟩,
     ⟨strBytes "p", strBytes "ee", strBytes "100644", 1, 0⟩]
    (by decide) (by decide) (by decide) (by decide)

/-! ## Repository state and references -/

/-- The mutable repository: object store, HEAD file (`none` = missing),
ref files keyed by their HEAD-relative path, and the index file. -/
structure RepoState where
  store : ObjStore
  head : Option (List Nat)
  refs : List (List Nat × List Nat)
  index : Option Index

/-- First matching ref file. -/
def lookupRef : List (List Nat × List Nat) → List Nat → Option (List Nat)
  | [], _ => none
  | (k, v) :: rest, r => if k = r then some v else lookupRef rest r

/-- Does the (trimmed) HEAD content carry the symbolic `"ref: "` marker? -/
def hasRefTag (l : List Nat) : Bool := l.take 5 == strBytes "ref: "

/-- Go `getCurrentBranchRef`: the path after `"ref: "`, or empty for a
detached HEAD. -/
def getCurrentBranchRef (st : RepoState) : Except GvcErr (List Nat) :=
  match st.head with
  | none => .error .headMissing
  | some h =>
    let hc := trimSpace h
    if hasRefTag hc then .ok (hc.drop 5) else .ok []

/-- Go `getCurrentCommit`: resolve the branch ref file (missing file means
no commits yet, the empty result), or the detached HEAD content. -/
def getCurrentCommit (st : RepoState) : Except GvcErr (List Nat) :=
  match getCurrentBranchRef st with
  | .error e => .error e
  | .ok branchRef =>
    if branchRef = [] then
      match st.head with
      | none => .error .headMissing
      | some h => .ok (trimSpace h)
    else
      match lookupRef st.refs branchRef with
      | none => .ok []
      | some data => .ok (trimSpace data)

/-- Go `updateBranchRef`: fails on a detached HEAD, otherwise overwrites
the branch ref file with the hash plus newline. -/
def updateBranchRef (st : RepoState) (commitSHA : List Nat) : Except GvcErr RepoState :=
  match getCurrentBranchRef st with
  | .error e => .error e
  | .ok branchRef =>
    if branchRef = [] then .error .detachedHead
    else .ok { st with refs := (branchRef, commitSHA ++ [10]) :: st.refs }

/-- The state produced by `initializeRepo`: fresh store, symbolic HEAD on
`main`, no ref files, empty index file. -/
def initRepoState : RepoState :=
  { store := [], head := some (strBytes "ref: refs/heads/main\n"),
    refs := [], index := some ⟨[]⟩ }

/-- Go `handleCommit`: tree from the index, parent from the current
branch, commit object, branch advance, then the index reset to empty.
Failures keep the mutations made so far (objects already written stay). -/
def handleCommit (z : Zlib) (now : Int) (st : RepoState) (args : List (List Nat)) :
    RepoState × Option GvcErr :=
  match args with
  | m :: msg :: _ =>
    if m ≠ strBytes "-m" then (st, some .usage)
    else
      match createTreeFromIndex z st.store st.index with
      | .error e => (st, some e)
      | .ok (treeSHA, store1) =>
        let st1 := { st with store := store1 }
        match getCurrentCommit st1 with
        | .error e => (st1, some e)
        | .ok parentSHA =>
          match commitTree z st1.store treeSHA parentSHA msg now with
          | .error e => (st1, some e)
          | .ok (commitSHA, store2) =>
            let st2 := { st1 with store := store2 }
            match updateBranchRef st2 commitSHA with
            | .error e => (st2, some e)
            | .ok st3 => ({ st3 with index := some ⟨[]⟩ }, none)
  | _ => (st, some .usage)

/-! ## Helper lemmas on `handleCommit` (shared by C5 and C8) -/

theorem handleCommit_empty_err (z : Zlib) (now : Int) (st : RepoState) (msg : List Nat)
    (h : (readIndexPure st.index).entries = []) :
    handleCommit z now st [strBytes "-m", msg] = (st, some .emptyIndex) := by
  have hct : createTreeFromIndex z st.store st.index = .error .emptyIndex := by
    simp [createTreeFromIndex, h]
  simp [handleCommit, hct]

theorem handleCommit_ok_state (z : Zlib) (now : Int) (st st' : RepoState)
    (args : List (List Nat)) (h : handleCommit z now st args = (st', none)) :
    st'.index = some ⟨[]⟩ := by
  match args with
  | [] => simp [handleCommit] at h
  | [m] => simp [handleCommit] at h
  | m :: msg :: rest =>
    simp only [handleCommit] at h
    by_cases hm : m ≠ strBytes "-m"
    · rw [if_pos hm] at h
      simp at h
    · rw [if_neg hm] at h
      cases hct : createTreeFromIndex z st.store st.index with
      | error e => simp [hct] at h
      | ok pr =>
        obtain ⟨treeSHA, store1⟩ := pr
        simp only [hct] at h
        cases hgc : getCurrentCommit { st with store := store1 } with
        | error e => simp [hgc] at h
        | ok parentSHA =>
          simp only [hgc] at h
          cases hcm : commitTree z store1 treeSHA parentSHA msg now with
          | error e => simp [hcm] at h
          | ok pr2 =>
            obtain ⟨commitSHA, store2⟩ := pr2
            simp only [hcm] at h
            cases hub : updateBranchRef { st with store := store2 } commitSHA with
            | error e => simp [hub] at h
            | ok st3 =>
              simp only [hub] at h
              have h1 : ({ st3 with index := some ⟨[]⟩ } : RepoState) = st' :=
                congrArg Prod.fst h
              rw [← h1]

/-- C5: a commit on an empty staging index fails with the empty-index
error and changes nothing, and every successful commit resets the
persisted index to empty, so a second commit with no intervening add
fails with the empty-index error. -/
theorem commit_clears_index (z : Zlib) (now now2 : Int) (st : RepoState)
    (msg msg2 : List Nat) :
    ((readIndexPure st.index).entries = [] →
      handleCommit z now st [strBytes "-m", msg] = (st, some .emptyIndex)) ∧
    (∀ st', handleCommit z now st [strBytes "-m", msg] = (st', none) →
      st'.index = some ⟨[]⟩ ∧
      handleCommit z now2 st' [strBytes "-m", msg2] = (st', some .emptyIndex)) := by
  refine ⟨fun h => handleCommit_empty_err z now st msg h, fun st' h => ?_⟩
  have hidx : st'.index = some ⟨[]⟩ := handleCommit_ok_state z now st st' _ h
  refine ⟨hidx, handleCommit_empty_err z now2 st' msg2 ?_⟩
  rw [hidx]
  rfl

/-- The staged state used to exercise a successful commit concretely. -/
def stagedState : RepoState :=
  { initRepoState with index := some ⟨[⟨strBytes "a",
      strBytes "aaaaaaaaaaaaaaaaaaaaaaaaaaaaaaaaaaaaaaaa", strBytes "100644", 1, 0⟩]⟩ }

/-- Witness for C5: a concrete successful commit, after which the index
is empty and a second commit fails with the empty-index error. -/
theorem commit_clears_index_witness :
    ((handleCommit idZlib 0 stagedState [strBytes "-m", strBytes "one"]).1).index
      = some ⟨[]⟩ ∧
    handleCommit idZlib 1 (handleCommit idZlib 0 stagedState
        [strBytes "-m", strBytes "one"]).1 [strBytes "-m", strBytes "two"]
      = ((handleCommit idZlib 0 stagedState [strBytes "-m", strBytes "one"]).1,
         some .emptyIndex) :=
  (commit_clears_index idZlib 0 1 stagedState (strBytes "one") (strBytes "two")).2
    (handleCommit idZlib 0 stagedState [strBytes "-m", strBytes "one"]).1 (by rfl)

/-! ## C6: log chain traversal -/

/-- The loop of Go `handleLog`, with explicit fuel standing for the
number of iterations the `for` loop actually performs: from a non-empty
hash, read the object (must be a commit), emit the hash, continue with
the parsed parent; stop at the empty hash. -/
def logWalk (z : Zlib) (store : ObjStore) : Nat → List Nat → Option (List (List Nat))
  | _, [] => some []
  | 0, _ :: _ => none
  | fuel + 1, b :: bs =>
    match readObject z store (b :: bs) with
    | .error _ => none
    | .ok (t, content) =>
      if t ≠ commitType then none
      else
        match logWalk z store fuel (parseCommit (b :: bs) content).1.parentSHA with
        | none => none
        | some rest => some ((b :: bs) :: rest)

deriving instance DecidableEq for Except

/-- A stored backward-linked commit chain: each listed hash reads back as
a commit object with the listed content, each content's parsed parent is
the next hash, and the last parent is the empty sentinel. -/
def isChainB (z : Zlib) (store : ObjStore) : List Nat → List (List Nat × List Nat) → Bool
  | sha, [] => decide (sha = [])
  | sha, (s, c) :: rest =>
    decide (sha = s) && decide (readObject z store s = .ok (commitType, c)) &&
      isChainB z store (parseCommit s c).1.parentSHA rest

/-- C6: walking the history from the head of a stored N-commit chain
visits exactly the N commits, in head-to-root order, and terminates (N
iterations of fuel suffice) at the commit whose parent is empty. -/
theorem logWalk_chain (z : Zlib) (store : ObjStore) :
    ∀ (chain : List (List Nat × List Nat)) (sha : List Nat),
      isChainB z store sha chain = true →
      logWalk z store chain.length sha = some (chain.map Prod.fst) := by
  intro chain
  induction chain with
  | nil =>
    intro sha h
    simp only [isChainB, decide_eq_true_eq] at h
    subst h
    rfl
  | cons pr rest ih =>
    obtain ⟨s, c⟩ := pr
    intro sha h
    simp only [isChainB, Bool.and_eq_true, decide_eq_true_eq] at h
    obtain ⟨⟨hs, hr⟩, hrest⟩ := h
    subst hs
    obtain ⟨b, bs, rfl⟩ : ∃ b bs, sha = b :: bs := by
      cases sha with
      | nil =>
        rw [show readObject z store [] = .error .invalidHash from rfl] at hr
        exact absurd hr (by simp)
      | cons b bs => exact ⟨b, bs, rfl⟩
    simp only [List.length_cons, logWalk, hr]
    rw [if_neg (by simp)]
    rw [ih _ hrest]
    simp

/-- Witness for C6: a concrete two-commit chain is walked head to root. -/
theorem logWalk_chain_witness :
    logWalk idZlib
      [(strBytes "cccccccccccccccccccccccccccccccccccccccc",
        idZlib.compress (objectFrame commitType
          (commitContent (strBytes "aaaaaaaaaaaaaaaaaaaaaaaaaaaaaaaaaaaaaaaa")
            (strBytes "dddddddddddddddddddddddddddddddddddddddd") (strBytes "m1") 0))),
       (strBytes "dddddddddddddddddddddddddddddddddddddddd",
        idZlib.compress (objectFrame commitType
          (commitContent (strBytes "aaaaaaaaaaaaaaaaaaaaaaaaaaaaaaaaaaaaaaaa")
            [] (strBytes "m2") 0)))] 2
      (strBytes "cccccccccccccccccccccccccccccccccccccccc")
      = some [strBytes "cccccccccccccccccccccccccccccccccccccccc",
              strBytes "dddddddddddddddddddddddddddddddddddddddd"] :=
  logWalk_chain idZlib _
    [(strBytes "cccccccccccccccccccccccccccccccccccccccc",
      commitContent (strBytes "aaaaaaaaaaaaaaaaaaaaaaaaaaaaaaaaaaaaaaaa")
        (strBytes "dddddddddddddddddddddddddddddddddddddddd") (strBytes "m1") 0),
     (strBytes "dddddddddddddddddddddddddddddddddddddddd",
      commitContent (strBytes "aaaaaaaaaaaaaaaaaaaaaaaaaaaaaaaaaaaaaaaa")
        [] (strBytes "m2") 0)]
    (strBytes "cccccccccccccccccccccccccccccccccccccccc") (by decide)

/-! ## Staging (`handleAdd`), C8 and C10 -/

/-- What `os.Stat` / `os.ReadFile` observe for one working-tree file. -/
structure FileInfo where
  content : List Nat
  execBit : Bool
  modTime : Int
  deriving Repr

/-- The working directory: path to file information. -/
def WorkDir := List (List Nat × FileInfo)

/-- `os.Stat` (and the subsequent read) on one named file. -/
def statFile : WorkDir → List Nat → Option FileInfo
  | [], _ => none
  | (p, fi) :: rest, q => if p = q then some fi else statFile rest q

/-- The `IndexEntry` built by `handleAdd` for one file: blob id, mode from
the executable bit, size and modification time from the stat. -/
def mkIndexEntry (z : Zlib) (store : ObjStore) (p : List Nat) (fi : FileInfo) : IndexEntry :=
  ⟨p, (writeObject z store blobType fi.content).1,
   if fi.execBit then strBytes "100755" else strBytes "100644",
   (fi.content.length : Int), fi.modTime⟩

/-- The removal loop of `handleAdd`: delete the first entry with the
given path (the loop breaks after one removal). -/
def removeFirstPath : List IndexEntry → List Nat → List IndexEntry
  | [], _ => []
  | e :: rest, p => if e.path = p then rest else e :: removeFirstPath rest p

/-- The per-file loop of `handleAdd`: stat and read the file (failure
aborts), write the blob, then replace-or-append the index entry. The
store mutations made before a failure persist; the index is only the
in-memory copy until the loop finishes. -/
def addLoop (z : Zlib) (wd : WorkDir) :
    ObjStore → Index → List (List Nat) → ObjStore × Index × Option GvcErr
  | store, idx, [] => (store, idx, none)
  | store, idx, p :: rest =>
    match statFile wd p with
    | none => (store, idx, some .statFailed)
    | some fi =>
      addLoop z wd (writeObject z store blobType fi.content).2
        ⟨removeFirstPath idx.entries p ++ [mkIndexEntry z store p fi]⟩ rest

/-- Go `handleAdd`: usage check, the per-file loop, and — only when every
file succeeded — the persisted index is overwritten with the new one. -/
def handleAdd (z : Zlib) (wd : WorkDir) (st : RepoState) (args : List (List Nat)) :
    RepoState × Option GvcErr :=
  if args = [] then (st, some .usage)
  else
    let r := addLoop z wd st.store (readIndexPure st.index) args
    match r.2.2 with
    | none => ({ st with store := r.1, index := some r.2.1 }, none)
    | some e => ({ st with store := r.1 }, some e)

/-- At most one staged entry per path. -/
def pathsNodup (idx : Index) : Prop :=
  (idx.entries.map (fun e => e.path)).Nodup

instance : DecidablePred pathsNodup := fun idx =>
  inferInstanceAs (Decidable ((idx.entries.map (fun (e : IndexEntry) => e.path)).Nodup))

/-- First staged entry for a path. -/
def findEntry : List IndexEntry → List Nat → Option IndexEntry
  | [], _ => none
  | e :: rest, p => if e.path = p then some e else findEntry rest p

theorem removeFirstPath_sublist {l : List IndexEntry} {p : List Nat} :
    (removeFirstPath l p).Sublist l := by
  induction l with
  | nil => simp [removeFirstPath]
  | cons e rest ih =>
    by_cases he : e.path = p
    · simp [removeFirstPath, he]
    · simp only [removeFirstPath, he, if_false]
      exact ih.cons₂ e

theorem removeFirstPath_not_mem {l : List IndexEntry} {p : List Nat}
    (hn : (l.map (fun e => e.path)).Nodup) :
    p ∉ (removeFirstPath l p).map (fun e => e.path) := by
  induction l with
  | nil => simp [removeFirstPath]
  | cons e rest ih =>
    rw [List.map_cons, List.nodup_cons] at hn
    by_cases he : e.path = p
    · simp only [removeFirstPath, he, if_true]
      rw [← he]
      exact hn.1
    · simp only [removeFirstPath, he, if_false, List.map_cons, List.mem_cons]
      intro hc
      rcases hc with hc | hc
      · exact he hc.symm
      · exact ih hn.2 hc

theorem addLoop_pathsNodup (z : Zlib) (wd : WorkDir) :
    ∀ (args : List (List Nat)) (store : ObjStore) (idx : Index),
      pathsNodup idx → pathsNodup (addLoop z wd store idx args).2.1 := by
  intro args
  induction args with
  | nil => intro store idx h; exact h
  | cons p rest ih =>
    intro store idx h
    simp only [addLoop]
    cases hs : statFile wd p with
    | none => exact h
    | some fi =>
      apply ih
      unfold pathsNodup at h ⊢
      simp only [List.map_append, List.map_cons, List.map_nil]
      rw [List.nodup_append]
      refine ⟨(h.sublist (removeFirstPath_sublist.map _)), List.nodup_singleton _, ?_⟩
      intro x hx
      simp only [List.mem_singleton]
      intro hc
      subst hc
      exact removeFirstPath_not_mem h (by simpa [mkIndexEntry] using hx)

theorem findEntry_append_right {l1 l2 : List IndexEntry} {p : List Nat}
    (h : p ∉ l1.map (fun e => e.path)) :
    findEntry (l1 ++ l2) p = findEntry l2 p := by
  induction l1 with
  | nil => rfl
  | cons e rest ih =>
    simp only [List.map_cons, List.mem_cons] at h
    push_neg at h
    simp only [List.cons_append, findEntry, (show e.path ≠ p from fun hc => h.1 hc.symm),
      if_false]
    exact ih h.2

/-- C8: the index created at repository initialization is empty (so
trivially one entry per path); every `add` — failed or successful —
preserves the at-most-one-entry-per-path invariant of the persisted
index; every successful commit leaves an empty index; and adding an
already-staged path replaces the prior entry with the newly built one. -/
theorem index_one_entry_per_path (z : Zlib) (wd : WorkDir) (st st' st'' : RepoState)
    (args : List (List Nat)) (e : Option GvcErr) (now : Int)
    (store : ObjStore) (idx : Index) (p msg : List Nat) (fi : FileInfo) :
    pathsNodup (readIndexPure initRepoState.index) ∧
    (pathsNodup (readIndexPure st.index) → handleAdd z wd st args = (st', e) →
      pathsNodup (readIndexPure st'.index)) ∧
    (handleCommit z now st [strBytes "-m", msg] = (st'', none) →
      pathsNodup (readIndexPure st''.index)) ∧
    (pathsNodup idx → statFile wd p = some fi →
      pathsNodup (addLoop z wd store idx [p]).2.1 ∧
      findEntry (addLoop z wd store idx [p]).2.1.entries p
        = some (mkIndexEntry z store p fi)) := by
  refine ⟨by simp [pathsNodup, initRepoState, readIndexPure], ?_, ?_, ?_⟩
  · intro hn hadd
    by_cases ha : args = []
    · rw [ha] at hadd
      simp only [handleAdd, if_pos rfl, if_true, Prod.mk.injEq] at hadd
      rw [← hadd.1]
      exact hn
    · rcases hl : addLoop z wd st.store (readIndexPure st.index) args with ⟨store1, idx1, oe⟩
      have hidx := addLoop_pathsNodup z wd args st.store (readIndexPure st.index) hn
      rw [hl] at hidx
      simp only [handleAdd, if_neg ha, hl] at hadd
      cases oe with
      | none =>
        simp only [Prod.mk.injEq] at hadd
        rw [← hadd.1]
        exact hidx
      | some e2 =>
        simp only [Prod.mk.injEq] at hadd
        rw [← hadd.1]
        exact hn
  · intro hc
    have := handleCommit_ok_state z now st st'' _ hc
    rw [this]
    simp [pathsNodup, readIndexPure]
  · intro hn hs
    have hstep : (addLoop z wd store idx [p]).2.1
        = ⟨removeFirstPath idx.entries p ++ [mkIndexEntry z store p fi]⟩ := by
      simp [addLoop, hs]
    constructor
    · have := addLoop_pathsNodup z wd [p] store idx hn
      exact this
    · rw [hstep]
      rw [findEntry_append_right (removeFirstPath_not_mem hn)]
      simp [findEntry, mkIndexEntry]

/-- Witness for C8 at a concrete add and commit. -/
theorem index_one_entry_per_path_witness :
    pathsNodup (readIndexPure
      ((handleAdd idZlib [(strBytes "a", ⟨[104], false, 0⟩)] stagedState
        [strBytes "a"]).1).index) ∧
    pathsNodup (readIndexPure
      ((handleCommit idZlib 0 stagedState [strBytes "-m", strBytes "one"]).1).index) ∧
    findEntry ((addLoop idZlib [(strBytes "a", ⟨[104], false, 0⟩)] []
        ⟨[⟨strBytes "a", strBytes "ee", strBytes "100644", 9, 9⟩]⟩ [strBytes "a"]).2.1).entries
      (strBytes "a")
      = some (mkIndexEntry idZlib [] (strBytes "a") ⟨[104], false, 0⟩) := by
  have h := index_one_entry_per_path idZlib [(strBytes "a", ⟨[104], false, 0⟩)]
    stagedState (handleAdd idZlib [(strBytes "a", ⟨[104], false, 0⟩)] stagedState
      [strBytes "a"]).1
    (handleCommit idZlib 0 stagedState [strBytes "-m", strBytes "one"]).1
    [strBytes "a"] (handleAdd idZlib [(strBytes "a", ⟨[104], false, 0⟩)] stagedState
      [strBytes "a"]).2 0 []
    ⟨[⟨strBytes "a", strBytes "ee", strBytes "100644", 9, 9⟩]⟩
    (strBytes "a") (strBytes "one") ⟨[104], false, 0⟩
  exact ⟨h.2.1 (by decide) (by rfl), h.2.2.1 (by rfl),
    (h.2.2.2 (by decide) (by rfl)).2⟩

/-- C10: when `add` fails for any named file, the persisted index is
exactly what it was before the add began — the updated index is written
only after every file has been processed. -/
theorem handleAdd_error_preserves_index (z : Zlib) (wd : WorkDir) (st st' : RepoState)
    (args : List (List Nat)) (e : GvcErr)
    (h : handleAdd z wd st args = (st', some e)) : st'.index = st.index := by
  by_cases ha : args = []
  · rw [ha] at h
    simp only [handleAdd, if_pos rfl, if_true, Prod.mk.injEq] at h
    rw [← h.1]
  · rcases hl : addLoop z wd st.store (readIndexPure st.index) args with ⟨store1, idx1, oe⟩
    simp only [handleAdd, if_neg ha, hl] at h
    cases oe with
    | none => simp at h
    | some e2 =>
      simp only [Prod.mk.injEq] at h
      rw [← h.1]

/-- Witness for C10: a failed add (the file is absent) leaves the
persisted index exactly as before. -/
theorem handleAdd_error_preserves_index_witness :
    ((handleAdd idZlib [] stagedState [strBytes "missing"]).1).index = stagedState.index :=
  handleAdd_error_preserves_index idZlib [] stagedState
    (handleAdd idZlib [] stagedState [strBytes "missing"]).1 [strBytes "missing"]
    .statFailed (by rfl)

end Gvc
